import Mathlib

/-!
Verification of the memote note store and query engine.

Shallow embedding of the core data layer of the memote note-taking app:
the `NotesContext` CRUD operations (`createNote`, `updateNote`, `deleteNote`),
the localStorage persistence pair (`saveNotesToStorage`, `loadNotesFromStorage`
together with the JSON serialization they rely on), the markup stripper
`stripHtml`, and the query function `filterNotes`.

Conventions of the embedding:
* JS numbers holding epoch-millisecond timestamps are modelled as `Int`.
* `null` is modelled by `Option`; the `reminder` field is `Option Int`.
* The wall clock (`Date.now()`) and the id generator (`uuidv4()`) are external
  collaborators: each call site becomes an explicit argument.  `createNote`
  reads the clock twice (once for `dateCreated`, once for `lastEdited`, in
  that evaluation order), so it takes two clock observations.
* An update patch (the JS object spread `{...n, ...data, ...}`) is modelled by
  `Patch`, a record of optional fields — each field independently
  present-or-absent, mirroring dynamic-object merge.
-/

namespace Memote

/-- A note, with the exact field set stored by the app
(`id`, `title`, `content`, `dateCreated`, `lastEdited`, `reminder`, `tags`). -/
structure Note where
  id : String
  title : String
  content : String
  dateCreated : Int
  lastEdited : Int
  reminder : Option Int
  tags : List String
deriving DecidableEq, Repr

/-- A dynamic partial-field patch, as passed to `updateNote(id, data)`.
A field that is `none` is absent from the JS object `data`; a present field
overwrites the note's field during the spread merge.  `reminder` is doubly
optional: `some none` means the patch carries `reminder: null`. -/
structure Patch where
  id : Option String := none
  title : Option String := none
  content : Option String := none
  dateCreated : Option Int := none
  lastEdited : Option Int := none
  reminder : Option (Option Int) := none
  tags : Option (List String) := none
deriving DecidableEq, Repr

/-- The JS spread `{...n, ...data}`: every field present in the patch
overwrites the corresponding field of the note. -/
def applyPatch (n : Note) (data : Patch) : Note :=
  { id := data.id.getD n.id
    title := data.title.getD n.title
    content := data.content.getD n.content
    dateCreated := data.dateCreated.getD n.dateCreated
    lastEdited := data.lastEdited.getD n.lastEdited
    reminder := data.reminder.getD n.reminder
    tags := data.tags.getD n.tags }

/-- The store operation `createNote(title, content, reminder, tags)` from `NotesContext`:
builds the new note (`id` from the uuid collaborator, `dateCreated` from the
first `Date.now()` read, `lastEdited` from the second, `tags: [...tags]`,
a copy — identity on immutable lists) and prepends it to the collection. -/
def createNote (title content : String) (reminder : Option Int)
    (tags : List String) (newId : String) (now1 now2 : Int)
    (notes : List Note) : List Note :=
  { id := newId
    title := title
    content := content
    dateCreated := now1
    lastEdited := now2
    reminder := reminder
    tags := tags } :: notes

/-- The store operation `updateNote(id, data)` from `NotesContext`:
`prev.map(n => n.id === id ? { ...n, ...data, lastEdited: Date.now() } : n)`.
The `lastEdited` refresh is written after the patch spread, so it wins. -/
def updateNote (id : String) (data : Patch) (now : Int)
    (notes : List Note) : List Note :=
  notes.map fun n => if n.id = id then { applyPatch n data with lastEdited := now } else n

/-- The store operation `deleteNote(id)` from `NotesContext`:
`prev.filter(n => n.id !== id)`. -/
def deleteNote (id : String) (notes : List Note) : List Note :=
  notes.filter fun n => n.id ≠ id

/-- One store mutation, carrying the values its collaborator calls returned:
`create` carries the fresh uuid and the two `Date.now()` reads (in evaluation
order: `dateCreated` first), `update` carries its single `Date.now()` read. -/
inductive Op where
  | create (title content : String) (reminder : Option Int) (tags : List String)
      (newId : String) (now1 now2 : Int)
  | update (id : String) (data : Patch) (now : Int)
  | delete (id : String)
deriving DecidableEq, Repr

/-- Apply one operation to the store's collection. -/
def applyOp (notes : List Note) : Op → List Note
  | .create title content reminder tags newId now1 now2 =>
      createNote title content reminder tags newId now1 now2 notes
  | .update id data now => updateNote id data now notes
  | .delete id => deleteNote id notes

/-- Run a sequence of operations starting from the empty store. -/
def runOps (ops : List Op) : List Note :=
  ops.foldl applyOp []

/-- The wall-clock observations an operation makes, in call order. -/
def opTimes : Op → List Int
  | .create _ _ _ _ _ now1 now2 => [now1, now2]
  | .update _ _ now => [now]
  | .delete _ => []

/-- All wall-clock observations of a sequence of operations, in order. -/
def timesOf (ops : List Op) : List Int :=
  ops.flatMap opTimes

/-- The clock observations are non-decreasing (adjacent pairs ordered). -/
def chainOk : List Int → Bool
  | [] => true
  | [_] => true
  | a :: b :: t => decide (a ≤ b) && chainOk (b :: t)

/-- The operation, if an update, carries no `dateCreated` field in its patch. -/
def keepsDateCreated : Op → Bool
  | .update _ data _ => data.dateCreated.isNone
  | _ => true

/-- The operation, if an update, carries no `id` field in its patch. -/
def keepsId : Op → Bool
  | .update _ data _ => data.id.isNone
  | _ => true

/-- Every `update` in the sequence has a patch without a `dateCreated` field. -/
def noDatePatch (ops : List Op) : Bool :=
  ops.all keepsDateCreated

/-- Every `update` in the sequence has a patch without an `id` field. -/
def noIdPatch (ops : List Op) : Bool :=
  ops.all keepsId

/-- The operation, if a create, receives an id distinct from every id
currently in the store. -/
def freshFor (notes : List Note) : Op → Bool
  | .create _ _ _ _ newId _ _ => !((notes.map Note.id).contains newId)
  | _ => true

/-- The id-generator contract along a run: each `create` receives an id
distinct from every id currently in the store. -/
def freshOk (notes : List Note) : List Op → Bool
  | [] => true
  | op :: rest => freshFor notes op && freshOk (applyOp notes op) rest

/- ### The query engine: `stripHtml` and `filterNotes` -/

/-- Consume characters up to and including the next `'>'`. -/
def tagClose : List Char → Option (List Char)
  | [] => none
  | c :: cs => if c = '>' then some cs else tagClose cs

/-- Try to consume `[^>]+>` from the front: at least one character other than
`'>'`, then everything up to and including the closing `'>'`. -/
def tagEnd : List Char → Option (List Char)
  | [] => none
  | c :: cs => if c = '>' then none else tagClose cs

/-- The global regex replace `htmlString.replace(/<[^>]+>/gi, "")`: at each
`'<'` that is closed by a later `'>'` with a nonempty body, the whole tag is
dropped and scanning continues after it; an unclosed `'<'` (or `"<>"`) is
kept, exactly as the regex engine leaves unmatched positions.  `fuel` only
bounds the recursion; every step consumes at least one character, so fuel
equal to the input length never runs dry. -/
def stripAux : Nat → List Char → List Char
  | 0, cs => cs
  | _ + 1, [] => []
  | fuel + 1, c :: cs =>
    if c = '<' then
      match tagEnd cs with
      | some rest => stripAux fuel rest
      | none => c :: stripAux fuel cs
    else c :: stripAux fuel cs

/-- The helper `stripHtml` from `utils/htmlHelpers.js`: removes every markup tag
(`/<[^>]+>/gi`) from the string.  The dynamic `typeof` guard of the source is
vacuous in the typed embedding. -/
def stripHtml (htmlString : String) : String :=
  String.mk (stripAux htmlString.data.length htmlString.data)

/-- The needle occurs at the front of the second list. -/
def leadsWith : List Char → List Char → Bool
  | [], _ => true
  | _ :: _, [] => false
  | a :: as, b :: bs => a == b && leadsWith as bs

/-- The needle occurs somewhere in the haystack (JS `String.prototype.includes`). -/
def hasSub : List Char → List Char → Bool
  | [], needle => needle.isEmpty
  | b :: t, needle => leadsWith needle (b :: t) || hasSub t needle

/-- The JS `hay.includes(needle)` substring test. -/
def strIncludes (hay needle : String) : Bool :=
  hasSub hay.data needle.data

/-- The JS `s.toLowerCase()` collaborator, modelled as character-wise
lowercasing. -/
def toLowerStr (s : String) : String :=
  String.mk (s.data.map Char.toLower)

/-- The reference date as `filterNotes` consumes it: the triple returned by
`getFullYear()` / `getMonth()` / `getDate()` in local time. -/
structure RefDate where
  year : Int
  month : Int
  day : Int

/-- The query function `filterNotes` from `NoteList.js`, parameterized by the local-calendar
conversion collaborator `mkTime y month day h min s ms`, the embedding of the
JS `new Date(y, month, day, h, min, s, ms).getTime()` constructor: keeps the
notes created within the selected local day whose title, or markup-stripped
content, contains the search text case-insensitively. -/
def filterNotes (mkTime : Int → Int → Int → Int → Int → Int → Int → Int)
    (notes : List Note) (selectedDate : RefDate) (searchQuery : String) :
    List Note :=
  let startOfDay := mkTime selectedDate.year selectedDate.month selectedDate.day 0 0 0 0
  let endOfDay := mkTime selectedDate.year selectedDate.month selectedDate.day 23 59 59 999
  let lowerSearch := toLowerStr searchQuery
  notes.filter fun note =>
    let created := note.dateCreated
    let sameDay := decide (startOfDay ≤ created) && decide (created ≤ endOfDay)
    let titleMatches := strIncludes (toLowerStr note.title) lowerSearch
    let contentPlain := toLowerStr (stripHtml note.content)
    let contentMatches := strIncludes contentPlain lowerSearch
    sameDay && (titleMatches || contentMatches)

/-- The spec's date criterion: `dateCreated` lies in the inclusive
millisecond range from 00:00:00.000 to 23:59:59.999 of the reference date's
own local calendar day. -/
def specDateMatches (mkTime : Int → Int → Int → Int → Int → Int → Int → Int)
    (selectedDate : RefDate) (n : Note) : Bool :=
  decide (mkTime selectedDate.year selectedDate.month selectedDate.day 0 0 0 0 ≤ n.dateCreated) &&
  decide (n.dateCreated ≤ mkTime selectedDate.year selectedDate.month selectedDate.day 23 59 59 999)

/-- The spec's text criterion: the search text is, case-insensitively, a
substring of the title or of the markup-stripped content. -/
def specTextMatches (searchText : String) (n : Note) : Bool :=
  strIncludes (toLowerStr n.title) (toLowerStr searchText) ||
  strIncludes (toLowerStr (stripHtml n.content)) (toLowerStr searchText)

/-- C1 counterexample: with non-decreasing clock observations, an update whose
patch itself carries a `dateCreated` field produces a note violating
`lastEdited >= dateCreated` (code does `{...n, ...data, lastEdited: now}`,
so the patch overwrites `dateCreated`). -/
def opsBadDate : List Op :=
  [.create "t" "c" none [] "a" 0 0,
   .update "a" { dateCreated := some 100 } 1]

/-- A well-clocked run without `dateCreated` patches, for the C1 witness. -/
def opsGoodDate : List Op :=
  [.create "t" "c" none [] "a" 0 1,
   .update "a" { title := some "t2" } 2]

/-- C2 counterexample run: both creates get fresh ids, but an update patch
then rewrites one note's `id` onto a colliding value (the spread merge
`{...n, ...data, ...}` happily overwrites `id`). -/
def opsBadId : List Op :=
  [.create "t" "c" none [] "a" 0 0,
   .create "t" "c" none [] "b" 1 1,
   .update "b" { id := some "a" } 2]

/-- A run with fresh ids and no id patches, for the C2 witness. -/
def opsGoodId : List Op :=
  [.create "t" "c" none [] "a" 0 0,
   .create "t" "c" none [] "b" 1 1,
   .delete "a",
   .update "b" { title := some "x" } 2]



/-- Concrete local-calendar conversion used by the C3 witness (any function
works: the filter theorem is uniform in the collaborator). -/
def mkTimeW : Int → Int → Int → Int → Int → Int → Int → Int :=
  fun _ _ day h min s ms => day * 86400000 + h * 3600000 + min * 60000 + s * 1000 + ms

/- ### Persistence: JSON values, `JSON.stringify` / `JSON.parse`,
`saveNotesToStorage` / `loadNotesFromStorage`

The storage state is the value held under the `memote_notes` key
(`Option String`, `none` when absent).  `JSON.stringify` / `JSON.parse` are
modelled over an explicit JSON value type: stringify renders with the exact
JS escaping rules for the data in play (integers in decimal, strings with
`\"`, `\\`, the named control escapes and `\u00XX`, no whitespace), and parse
is a recursive-descent reader of that grammar (fuel-indexed; fuel ticks only
alongside consumed characters, so `length + 1` always suffices). -/

/-- A JSON value (numbers restricted to integers, which is exact for the
note fields persisted by the app). -/
inductive Json where
  | jnull
  | jbool (b : Bool)
  | jnum (i : Int)
  | jstr (s : String)
  | jarr (elems : List Json)
  | jobj (fields : List (String × Json))

/-- Decimal digit character. -/
def digitChar (n : Nat) : Char := Char.ofNat (48 + n)

/-- Lowercase hexadecimal digit character, as `JSON.stringify` emits in
`\u00XX` escapes. -/
def hexDigitChar (n : Nat) : Char :=
  if n < 10 then Char.ofNat (48 + n) else Char.ofNat (87 + n)

/-- The `JSON.stringify` escaping of one string character: `\"` and `\\`, the
named control escapes `\b \t \n \f \r`, `\u00XX` for the remaining control
characters, every other character verbatim. -/
def escChar (c : Char) : List Char :=
  if c = '"' then ['\\', '"']
  else if c = '\\' then ['\\', '\\']
  else if c.toNat = 8 then ['\\', 'b']
  else if c.toNat = 9 then ['\\', 't']
  else if c.toNat = 10 then ['\\', 'n']
  else if c.toNat = 12 then ['\\', 'f']
  else if c.toNat = 13 then ['\\', 'r']
  else if c.toNat < 32 then
    ['\\', 'u', '0', '0', hexDigitChar (c.toNat / 16), hexDigitChar (c.toNat % 16)]
  else [c]

/-- Escape a whole string body. -/
def escapeChars : List Char → List Char
  | [] => []
  | c :: cs => escChar c ++ escapeChars cs

/-- Decimal rendering of a natural number. -/
def renderNat (n : Nat) : List Char :=
  if n < 10 then [digitChar n]
  else renderNat (n / 10) ++ [digitChar (n % 10)]
termination_by n
decreasing_by exact Nat.div_lt_self (by omega) (by omega)

/-- Decimal rendering of an integer (JS prints safe integers this way). -/
def renderInt (i : Int) : List Char :=
  if i < 0 then '-' :: renderNat i.natAbs else renderNat i.toNat

mutual

/-- The builtin `JSON.stringify` (no indentation: no whitespace is emitted). -/
def renderJson : Json → List Char
  | .jnull => ['n', 'u', 'l', 'l']
  | .jbool true => ['t', 'r', 'u', 'e']
  | .jbool false => ['f', 'a', 'l', 's', 'e']
  | .jnum i => renderInt i
  | .jstr s => '"' :: (escapeChars s.data ++ ['"'])
  | .jarr [] => ['[', ']']
  | .jarr (v :: vs) => '[' :: (renderJson v ++ renderArrRest vs ++ [']'])
  | .jobj [] => ['\x7b', '\x7d']
  | .jobj (f :: fs) => '\x7b' :: (renderField f ++ renderObjRest fs ++ ['\x7d'])

/-- One rendered `"key":value` member. -/
def renderField : String × Json → List Char
  | (k, v) => '"' :: (escapeChars k.data ++ ['"', ':'] ++ renderJson v)

/-- The remaining array elements, each preceded by a comma. -/
def renderArrRest : List Json → List Char
  | [] => []
  | v :: vs => ',' :: (renderJson v ++ renderArrRest vs)

/-- The remaining object members, each preceded by a comma. -/
def renderObjRest : List (String × Json) → List Char
  | [] => []
  | f :: fs => ',' :: (renderField f ++ renderObjRest fs)

end

/-- Numeric value of a hexadecimal digit character. -/
def hexVal (c : Char) : Nat :=
  if c.isDigit then c.toNat - 48
  else if 97 ≤ c.toNat ∧ c.toNat ≤ 102 then c.toNat - 87
  else if 65 ≤ c.toNat ∧ c.toNat ≤ 70 then c.toNat - 55
  else 0

/-- Hexadecimal digit test. -/
def isHexDig (c : Char) : Bool :=
  c.isDigit || decide (97 ≤ c.toNat ∧ c.toNat ≤ 102) || decide (65 ≤ c.toNat ∧ c.toNat ≤ 70)

/-- Split off the maximal leading run of decimal digits. -/
def grabDigits : List Char → List Char × List Char
  | [] => ([], [])
  | c :: cs =>
    if c.isDigit then
      let p := grabDigits cs
      (c :: p.1, p.2)
    else ([], c :: cs)

/-- Value of a digit run. -/
def digitsToNat (ds : List Char) : Nat :=
  ds.foldl (fun a c => a * 10 + (c.toNat - 48)) 0

/-- Prepend a character to the pending string of a string-body parse. -/
def consStr (c : Char) : Option (List Char × List Char) → Option (List Char × List Char)
  | none => none
  | some (s, r) => some (c :: s, r)

/-- Parse a JSON string body after the opening quote, through the closing
quote, resolving escapes. -/
def parseStrChars : List Char → Option (List Char × List Char)
  | [] => none
  | c :: r =>
    if c = '"' then some ([], r)
    else if c = '\\' then
      match r with
      | [] => none
      | e :: r' =>
        if e = '"' then consStr '"' (parseStrChars r')
        else if e = '\\' then consStr '\\' (parseStrChars r')
        else if e = '/' then consStr '/' (parseStrChars r')
        else if e = 'b' then consStr (Char.ofNat 8) (parseStrChars r')
        else if e = 'f' then consStr (Char.ofNat 12) (parseStrChars r')
        else if e = 'n' then consStr (Char.ofNat 10) (parseStrChars r')
        else if e = 'r' then consStr (Char.ofNat 13) (parseStrChars r')
        else if e = 't' then consStr (Char.ofNat 9) (parseStrChars r')
        else if e = 'u' then
          match r' with
          | h1 :: h2 :: h3 :: h4 :: r2 =>
            if isHexDig h1 && isHexDig h2 && isHexDig h3 && isHexDig h4 then
              consStr
                (Char.ofNat (((hexVal h1 * 16 + hexVal h2) * 16 + hexVal h3) * 16 + hexVal h4))
                (parseStrChars r2)
            else none
          | _ => none
        else none
    else consStr c (parseStrChars r)

/-- Parse a JSON integer literal. -/
def parseIntChars (cs : List Char) : Option (Json × List Char) :=
  match cs with
  | [] => none
  | c :: r =>
    if c = '-' then
      match grabDigits r with
      | ([], _) => none
      | (ds, r2) => some (.jnum (-(digitsToNat ds : Int)), r2)
    else
      match grabDigits (c :: r) with
      | ([], _) => none
      | (ds, r2) => some (.jnum (digitsToNat ds), r2)

/-- The characters following a rendered value never start with a digit
(they are a delimiter or nothing), so maximal-munch number parsing stops
exactly at the value boundary. -/
def okAfter : List Char → Prop
  | [] => True
  | c :: _ => c.isDigit = false

mutual

/-- Fuel-indexed recursive-descent JSON value reader (the model of
`JSON.parse` on the grammar `JSON.stringify` emits).  Fuel only ticks along
with consumed characters, so `input length + 1` is always enough. -/
def parseValue : Nat → List Char → Option (Json × List Char)
  | 0, _ => none
  | fuel + 1, cs =>
    match cs with
    | 'n' :: 'u' :: 'l' :: 'l' :: r => some (.jnull, r)
    | 't' :: 'r' :: 'u' :: 'e' :: r => some (.jbool true, r)
    | 'f' :: 'a' :: 'l' :: 's' :: 'e' :: r => some (.jbool false, r)
    | '"' :: r =>
      match parseStrChars r with
      | some (s, r2) => some (.jstr (String.mk s), r2)
      | none => none
    | '[' :: r =>
      (match r with
       | ']' :: r2 => some (.jarr [], r2)
       | _ =>
         match parseValue fuel r with
         | some (v, r2) =>
           match parseArrRest fuel r2 with
           | some (vs, r3) => some (.jarr (v :: vs), r3)
           | none => none
         | none => none)
    | '\x7b' :: r =>
      (match r with
       | '\x7d' :: r2 => some (.jobj [], r2)
       | '"' :: r2 =>
         match parseStrChars r2 with
         | some (k, ':' :: r3) =>
           match parseValue fuel r3 with
           | some (v, r4) =>
             match parseObjRest fuel r4 with
             | some (fs, r5) => some (.jobj ((String.mk k, v) :: fs), r5)
             | none => none
           | none => none
         | _ => none
       | _ => none)
    | c :: r => if c = '-' ∨ c.isDigit then parseIntChars (c :: r) else none
    | [] => none

/-- After one array element: a comma and a further element, or the close. -/
def parseArrRest : Nat → List Char → Option (List Json × List Char)
  | 0, _ => none
  | fuel + 1, cs =>
    match cs with
    | ']' :: r => some ([], r)
    | ',' :: r =>
      match parseValue fuel r with
      | some (v, r2) =>
        match parseArrRest fuel r2 with
        | some (vs, r3) => some (v :: vs, r3)
        | none => none
      | none => none
    | _ => none

/-- After one object member: a comma and a further member, or the close. -/
def parseObjRest : Nat → List Char → Option (List (String × Json) × List Char)
  | 0, _ => none
  | fuel + 1, cs =>
    match cs with
    | '\x7d' :: r => some ([], r)
    | ',' :: '"' :: r =>
      match parseStrChars r with
      | some (k, ':' :: r2) =>
        match parseValue fuel r2 with
        | some (v, r3) =>
          match parseObjRest fuel r3 with
          | some (fs, r4) => some ((String.mk k, v) :: fs, r4)
          | none => none
        | none => none
      | _ => none
    | _ => none

end

/-- The builtin `JSON.parse`: read one value spanning the whole string. -/
def parseJson (s : String) : Option Json :=
  match parseValue (s.data.length + 1) s.data with
  | some (v, []) => some v
  | _ => none

/-- The JSON object `JSON.stringify` sees for one stored note: the seven
fields in the insertion order of the note object literal. -/
def encodeNote (n : Note) : Json :=
  .jobj [("id", .jstr n.id), ("title", .jstr n.title), ("content", .jstr n.content),
         ("dateCreated", .jnum n.dateCreated), ("lastEdited", .jnum n.lastEdited),
         ("reminder", match n.reminder with | some r => .jnum r | none => .jnull),
         ("tags", .jarr (n.tags.map .jstr))]

/-- The notes array as a JSON value. -/
def encodeNotes (notesArray : List Note) : Json :=
  .jarr (notesArray.map encodeNote)

/-- First-match lookup in a JSON object's member list. -/
def lookupField : List (String × Json) → String → Option Json
  | [], _ => none
  | (k, v) :: fs, key => if k = key then some v else lookupField fs key

/-- Read a JSON string member. -/
def asStr : Option Json → Option String
  | some (.jstr s) => some s
  | _ => none

/-- Read a JSON integer member. -/
def asInt : Option Json → Option Int
  | some (.jnum i) => some i
  | _ => none

/-- Read the nullable `reminder` member. -/
def asReminder : Option Json → Option (Option Int)
  | some .jnull => some none
  | some (.jnum i) => some (some i)
  | _ => none

/-- Read one tag. -/
def asTag : Json → Option String
  | .jstr s => some s
  | _ => none

/-- Option-valued map over a list, failing when any element fails. -/
def mapOpt (f : α → Option β) : List α → Option (List β)
  | [] => some []
  | a :: l =>
    match f a with
    | none => none
    | some b =>
      match mapOpt f l with
      | none => none
      | some bs => some (b :: bs)

/-- Read the `tags` member. -/
def asStrList : Option Json → Option (List String)
  | some (.jarr xs) => mapOpt asTag xs
  | _ => none

/-- View a parsed JSON object as a `Note`.  The untyped source uses the
parsed objects directly; `none` marks values outside the `Note` shape, which
the typed embedding cannot hold. -/
def decodeNote : Json → Option Note
  | .jobj fs => do
    let id ← asStr (lookupField fs "id")
    let title ← asStr (lookupField fs "title")
    let content ← asStr (lookupField fs "content")
    let dateCreated ← asInt (lookupField fs "dateCreated")
    let lastEdited ← asInt (lookupField fs "lastEdited")
    let reminder ← asReminder (lookupField fs "reminder")
    let tags ← asStrList (lookupField fs "tags")
    some { id := id, title := title, content := content, dateCreated := dateCreated,
           lastEdited := lastEdited, reminder := reminder, tags := tags }
  | _ => none

/-- The function `saveNotesToStorage` from `utils/storage.js`: serialize the array and
store it under the key; the result is the new stored value.  (The JS
`try/catch` swallows storage failures; the model keeps the successful
path.) -/
def saveNotesToStorage (notesArray : List Note) : Option String :=
  some (String.mk (renderJson (encodeNotes notesArray)))

/-- The function `loadNotesFromStorage` from `utils/storage.js`: an absent (or falsy,
i.e. empty) stored value or an unparsable one yields the empty collection;
a parsed non-array yields the empty collection (`Array.isArray` guard); a
parsed array is used as the note collection (`none` marks element shapes
the typed embedding cannot hold). -/
def loadNotesFromStorage (stored : Option String) : Option (List Note) :=
  match stored with
  | none => some []
  | some s =>
    if s = "" then some []
    else
      match parseJson s with
      | none => some []
      | some (.jarr xs) => mapOpt decodeNote xs
      | some _ => some []

end Memote

namespace Memote

/- ### Helper lemmas -/

theorem chainOk_cons_le {a b : Int} {t : List Int}
    (h : chainOk (a :: b :: t) = true) : a ≤ b ∧ chainOk (b :: t) = true := by
  simpa [chainOk, Bool.and_eq_true, decide_eq_true_eq] using h

theorem chainOk_head_le {a : Int} : ∀ {l : List Int},
    chainOk (a :: l) = true → ∀ x ∈ l, a ≤ x := by
  intro l
  induction l generalizing a with
  | nil => intro _ x hx; cases hx
  | cons b t ih =>
    intro h x hx
    obtain ⟨hab, hbt⟩ := chainOk_cons_le h
    rcases List.mem_cons.mp hx with rfl | hx'
    · exact hab
    · exact le_trans hab (ih hbt x hx')

theorem chainOk_tail {a : Int} {l : List Int}
    (h : chainOk (a :: l) = true) : chainOk l = true := by
  cases l with
  | nil => rfl
  | cons b t => exact (chainOk_cons_le h).2

theorem chainOk_append_right : ∀ {l₁ l₂ : List Int},
    chainOk (l₁ ++ l₂) = true → chainOk l₂ = true := by
  intro l₁
  induction l₁ with
  | nil => intro l₂ h; simpa using h
  | cons a t ih =>
    intro l₂ h
    exact ih (chainOk_tail (by simpa using h))

theorem timesOf_cons (op : Op) (ops : List Op) :
    timesOf (op :: ops) = opTimes op ++ timesOf ops := by
  simp [timesOf]

/-- Invariant engine for the `lastEdited ≥ dateCreated` claim: if every stored
note is internally consistent and edited no later than every upcoming clock
observation, running the rest of a well-clocked, `dateCreated`-patch-free
sequence keeps every note internally consistent. -/
theorem dates_aux : ∀ (ops : List Op) (st : List Note),
    (∀ n ∈ st, n.dateCreated ≤ n.lastEdited ∧ ∀ t ∈ timesOf ops, n.lastEdited ≤ t) →
    chainOk (timesOf ops) = true →
    noDatePatch ops = true →
    ∀ n ∈ ops.foldl applyOp st, n.dateCreated ≤ n.lastEdited := by
  intro ops
  induction ops with
  | nil =>
    intro st hst _ _ n hn
    exact (hst n hn).1
  | cons op rest ih =>
    intro st hst hchain hnd
    have hnd' : (keepsDateCreated op && noDatePatch rest) = true := by
      simpa [noDatePatch, List.all_cons] using hnd
    have hndop : keepsDateCreated op = true := (Bool.and_eq_true _ _ ▸ hnd').1
    have hndrest : noDatePatch rest = true := (Bool.and_eq_true _ _ ▸ hnd').2
    have hchainrest : chainOk (timesOf rest) = true := by
      have := hchain
      rw [timesOf_cons] at this
      exact chainOk_append_right this
    rw [List.foldl_cons]
    apply ih (applyOp st op) _ hchainrest hndrest
    -- re-establish the invariant after one operation
    cases op with
    | create title content reminder tags newId now1 now2 =>
      intro n hn
      rw [timesOf_cons] at hchain
      simp only [opTimes] at hchain
      have h12 : now1 ≤ now2 := (chainOk_cons_le hchain).1
      have h2rest : ∀ t ∈ timesOf rest, now2 ≤ t :=
        chainOk_head_le (chainOk_cons_le hchain).2
      simp only [applyOp, createNote, List.mem_cons] at hn
      rcases hn with rfl | hn
      · exact ⟨h12, h2rest⟩
      · obtain ⟨h1, h2⟩ := hst n hn
        refine ⟨h1, fun t ht => h2 t ?_⟩
        rw [timesOf_cons]
        simp [opTimes, ht]
    | update id data now =>
      intro n hn
      rw [timesOf_cons] at hchain
      simp only [opTimes] at hchain
      have hnowrest : ∀ t ∈ timesOf rest, now ≤ t := chainOk_head_le hchain
      simp only [applyOp, updateNote, List.mem_map] at hn
      obtain ⟨m, hm, rfl⟩ := hn
      obtain ⟨h1, h2⟩ := hst m hm
      have h2' : ∀ t ∈ timesOf rest, m.lastEdited ≤ t := by
        intro t ht
        apply h2
        rw [timesOf_cons]
        simp [opTimes, ht]
      by_cases hid : m.id = id
      · have hmnow : m.lastEdited ≤ now := by
          apply h2
          rw [timesOf_cons]
          simp [opTimes]
        have hdc : data.dateCreated = none := by
          simpa [keepsDateCreated, Option.isNone_iff_eq_none] using hndop
        simp only [hid, if_pos rfl]
        refine ⟨?_, ?_⟩
        · simp only [applyPatch, hdc, Option.getD_none]
          exact le_trans h1 hmnow
        · intro t ht
          exact hnowrest t ht
      · simp only [hid, if_neg (by exact hid)]
        exact ⟨h1, h2'⟩
    | delete id =>
      intro n hn
      simp only [applyOp, deleteNote, List.mem_filter] at hn
      obtain ⟨h1, h2⟩ := hst n hn.1
      refine ⟨h1, fun t ht => h2 t ?_⟩
      rw [timesOf_cons]
      simpa [opTimes] using ht

/-- An update whose patch has no `id` field leaves every stored id in place. -/
theorem updateNote_map_id (id : String) (data : Patch) (now : Int)
    (notes : List Note) (h : data.id = none) :
    (updateNote id data now notes).map Note.id = notes.map Note.id := by
  unfold updateNote
  rw [List.map_map]
  apply List.map_congr_left
  intro n _
  by_cases hid : n.id = id
  · simp [Function.comp, hid, applyPatch, h]
  · simp [Function.comp, hid]

/-- Invariant engine for id uniqueness: starting from a store with pairwise
distinct ids, a run whose creates get fresh ids and whose update patches
never carry an `id` field preserves distinctness. -/
theorem ids_aux : ∀ (ops : List Op) (st : List Note),
    freshOk st ops = true → noIdPatch ops = true →
    (st.map Note.id).Nodup → ((ops.foldl applyOp st).map Note.id).Nodup := by
  intro ops
  induction ops with
  | nil => intro st _ _ h; simpa using h
  | cons op rest ih =>
    intro st hfresh hnip hnd
    have hfresh' : (freshFor st op && freshOk (applyOp st op) rest) = true := hfresh
    have hfop : freshFor st op = true := (Bool.and_eq_true _ _ ▸ hfresh').1
    have hfrest : freshOk (applyOp st op) rest = true := (Bool.and_eq_true _ _ ▸ hfresh').2
    have hnip' : (keepsId op && noIdPatch rest) = true := by
      simpa [noIdPatch, List.all_cons] using hnip
    have hnipop : keepsId op = true := (Bool.and_eq_true _ _ ▸ hnip').1
    have hniprest : noIdPatch rest = true := (Bool.and_eq_true _ _ ▸ hnip').2
    rw [List.foldl_cons]
    apply ih (applyOp st op) hfrest hniprest
    cases op with
    | create title content reminder tags newId now1 now2 =>
      have hnotmem : newId ∉ st.map Note.id := by
        intro hmem
        simp only [freshFor, Bool.not_eq_true'] at hfop
        simp at hfop
        obtain ⟨x, hx, hxid⟩ := List.mem_map.mp hmem
        exact hfop x hx hxid
      show ((createNote title content reminder tags newId now1 now2 st).map Note.id).Nodup
      rw [createNote, List.map_cons]
      exact List.nodup_cons.mpr ⟨hnotmem, hnd⟩
    | update id data now =>
      have hdid : data.id = none := by
        simpa [keepsId, Option.isNone_iff_eq_none] using hnipop
      simpa [applyOp, updateNote_map_id id data now st hdid] using hnd
    | delete id =>
      have hsub : ((deleteNote id st).map Note.id).Sublist (st.map Note.id) :=
        (List.filter_sublist st).map Note.id
      exact hnd.sublist hsub

end Memote

namespace Memote

/- ### Claim C1 -/


/-- C1 is false as stated: `opsBadDate` has non-decreasing clock observations,
yet after running it a note has `dateCreated = 100 > 1 = lastEdited`. -/
theorem dates_claim_counterexample :
    chainOk (timesOf opsBadDate) = true ∧
    ((runOps opsBadDate).all fun n => decide (n.dateCreated ≤ n.lastEdited)) = false := by
  constructor
  · decide
  · decide

/-- C1 (amended): for every sequence of Create/Update/Delete operations from
the empty store whose successive wall-clock observations are non-decreasing
and whose update patches never carry a `dateCreated` field, every note in the
resulting store satisfies `dateCreated ≤ lastEdited`.  (Quantifying over all
such sequences covers every observation point, since each prefix of such a
sequence is again such a sequence.) -/
theorem dates_invariant (ops : List Op)
    (hmono : chainOk (timesOf ops) = true)
    (hnd : noDatePatch ops = true) :
    ∀ n ∈ runOps ops, n.dateCreated ≤ n.lastEdited :=
  dates_aux ops [] (fun n hn => absurd hn (List.not_mem_nil n)) hmono hnd


/-- Witness for the amended C1 at a concrete run. -/
theorem dates_invariant_witness :
    (⟨"a", "t2", "c", 0, 2, none, []⟩ : Note).dateCreated ≤
      (⟨"a", "t2", "c", 0, 2, none, []⟩ : Note).lastEdited :=
  dates_invariant opsGoodDate (by decide) (by decide) _ (by decide)

/- ### Claim C2 -/


/-- C2 is false as stated: every create in `opsBadId` receives an id fresh for
the store at that moment, yet the final store holds two notes with id `"a"`. -/
theorem ids_claim_counterexample :
    freshOk [] opsBadId = true ∧ ¬ ((runOps opsBadId).map Note.id).Nodup := by
  constructor
  · decide
  · decide

/-- C2 (amended): for every sequence of Create/Update/Delete operations from
the empty store in which each create's id is fresh for the current store and
no update patch carries an `id` field, the stored ids are pairwise distinct.
(All such sequences are covered, hence every observation point.) -/
theorem ids_unique (ops : List Op)
    (hfresh : freshOk [] ops = true) (hnip : noIdPatch ops = true) :
    ((runOps ops).map Note.id).Nodup :=
  ids_aux ops [] hfresh hnip (by simp)


/-- Witness for the amended C2 at a concrete run. -/
theorem ids_unique_witness : ((runOps opsGoodId).map Note.id).Nodup :=
  ids_unique opsGoodId (by decide) (by decide)

/- ### Claims C4, C5, C6, C7, C8, C10 -/

/-- A sample note used by several witnesses. -/
def noteA : Note := ⟨"a", "t", "c", 0, 0, none, []⟩

/-- A second sample note. -/
def noteB : Note := ⟨"b", "u", "d", 1, 1, none, ["x"]⟩

/-- C4 counterexample: an update whose patch carries `dateCreated` changes
the matching note's `dateCreated` (from 5 to 99), so `id`/`dateCreated` are
not immutable under arbitrary partial fields. -/
theorem updateNote_mutates_dateCreated :
    (updateNote "a" { dateCreated := some 99 } 7
        [⟨"a", "t", "c", 5, 5, none, []⟩]).map Note.dateCreated = [99] ∧
    (99 : Int) ≠ 5 := ⟨rfl, by decide⟩

/-- C4 (amended): under `Update(id, data)` every note with a different id is
completely unchanged and keeps its position; the matching note gets
`lastEdited = now`, keeps every field absent from the patch, and in
particular keeps `id` and `dateCreated` whenever the patch does not
carry them. -/
theorem updateNote_frame (notes : List Note) (id : String) (data : Patch) (now : Int) :
    (updateNote id data now notes).length = notes.length ∧
    (∀ (i : Nat) (n : Note), notes[i]? = some n → n.id ≠ id →
      (updateNote id data now notes)[i]? = some n) ∧
    (∀ (i : Nat) (n : Note), notes[i]? = some n → n.id = id →
      ∃ n', (updateNote id data now notes)[i]? = some n' ∧
        n'.lastEdited = now ∧
        (data.id = none → n'.id = n.id) ∧
        (data.dateCreated = none → n'.dateCreated = n.dateCreated) ∧
        (data.title = none → n'.title = n.title) ∧
        (data.content = none → n'.content = n.content) ∧
        (data.reminder = none → n'.reminder = n.reminder) ∧
        (data.tags = none → n'.tags = n.tags)) := by
  refine ⟨by simp [updateNote], ?_, ?_⟩
  · intro i n hi hne
    unfold updateNote
    rw [List.getElem?_map, hi]
    simp [hne]
  · intro i n hi heq
    refine ⟨{ applyPatch n data with lastEdited := now }, ?_, rfl, ?_, ?_, ?_, ?_, ?_, ?_⟩
    · unfold updateNote
      rw [List.getElem?_map, hi]
      simp [heq]
    all_goals intro h
    all_goals simp [applyPatch, h]

/-- Witness for the amended C4: the non-matching note at position 1 survives
an update of `"a"` untouched. -/
theorem updateNote_frame_witness :
    (updateNote "a" { title := some "new" } 9 [noteA, noteB])[1]? = some noteB :=
  (updateNote_frame [noteA, noteB] "a" { title := some "new" } 9).2.1 1 noteB rfl (by decide)

/-- C5: `createNote` prepends one new note carrying exactly the given fields
(with the generated id and the two clock reads), leaving every previously
stored note unchanged in order; the head of the resulting list is the new
note, so an immediate List returns it first. -/
theorem createNote_prepends (title content : String) (reminder : Option Int)
    (tags : List String) (newId : String) (now1 now2 : Int) (notes : List Note) :
    createNote title content reminder tags newId now1 now2 notes =
      { id := newId, title := title, content := content, dateCreated := now1,
        lastEdited := now2, reminder := reminder, tags := tags } :: notes ∧
    (createNote title content reminder tags newId now1 now2 notes).head? =
      some { id := newId, title := title, content := content, dateCreated := now1,
             lastEdited := now2, reminder := reminder, tags := tags } ∧
    (createNote title content reminder tags newId now1 now2 notes).tail = notes :=
  ⟨rfl, rfl, rfl⟩

/-- C6 counterexample: `createNote` reads the clock once for `dateCreated`
and again for `lastEdited`; when the clock advances between the two reads
(here 0 then 1, still non-decreasing) the new note has
`dateCreated = 0 ≠ 1 = lastEdited`. -/
theorem createNote_clock_tick :
    (createNote "t" "c" none [] "i" 0 1 []).map
        (fun n => (n.dateCreated, n.lastEdited)) = [(0, 1)] ∧
    (0 : Int) ≠ 1 := ⟨rfl, by decide⟩

/-- C6 (amended): whenever the two creation-time clock reads return the same
value `now` — in particular whenever the clock does not advance during the
create — the newly created note has `dateCreated = lastEdited = now`. -/
theorem createNote_equal_clock_reads (title content : String)
    (reminder : Option Int) (tags : List String) (newId : String) (now : Int)
    (notes : List Note) :
    (createNote title content reminder tags newId now now notes).head?.map
        Note.dateCreated = some now ∧
    (createNote title content reminder tags newId now now notes).head?.map
        Note.lastEdited = some now :=
  ⟨rfl, rfl⟩

/-- C7: `deleteNote id` keeps exactly the notes whose id differs, in order and
with unchanged fields; no note with that id remains; deleting an id matching
no stored note is a no-op. -/
theorem deleteNote_spec (notes : List Note) (id : String) :
    deleteNote id notes = notes.filter (fun n => n.id ≠ id) ∧
    (∀ n, n ∈ deleteNote id notes ↔ n ∈ notes ∧ n.id ≠ id) ∧
    (∀ n ∈ deleteNote id notes, n.id ≠ id) ∧
    ((∀ n ∈ notes, n.id ≠ id) → deleteNote id notes = notes) := by
  refine ⟨rfl, ?_, ?_, ?_⟩
  · intro n
    simp [deleteNote, List.mem_filter]
  · intro n hn
    simpa [deleteNote, List.mem_filter] using (List.mem_filter.mp hn).2
  · intro h
    unfold deleteNote
    apply List.filter_eq_self.mpr
    intro n hn
    simpa using h n hn

/-- Witness for C7: deleting an absent id from a concrete store changes
nothing. -/
theorem deleteNote_spec_witness : deleteNote "z" [noteA] = [noteA] :=
  (deleteNote_spec [noteA] "z").2.2.2 (by decide)

/-- C8: `updateNote` on an id held by no stored note leaves the collection
unchanged — same notes, same values, same order — and, being a total
function, raises no error. -/
theorem updateNote_unknown_id (notes : List Note) (id : String) (data : Patch)
    (now : Int) (h : ∀ n ∈ notes, n.id ≠ id) :
    updateNote id data now notes = notes := by
  unfold updateNote
  conv_rhs => rw [← List.map_id notes]
  apply List.map_congr_left
  intro n hn
  simp [h n hn]

/-- Witness for C8 at a concrete store and unknown id. -/
theorem updateNote_unknown_id_witness :
    updateNote "z" { title := some "x" } 5 [noteA] = [noteA] :=
  updateNote_unknown_id [noteA] "z" { title := some "x" } 5 (by decide)

/-- C10: on the matching note the stored result is the patch merge with
`lastEdited` overwritten by the operation's `now` — applied after the merge,
so a `lastEdited` value inside the patch (the patch is arbitrary here,
including one carrying `lastEdited`) is discarded. -/
theorem updateNote_refreshes_lastEdited (notes : List Note) (id : String)
    (data : Patch) (now : Int) :
    ∀ (i : Nat) (n : Note), notes[i]? = some n → n.id = id →
      (updateNote id data now notes)[i]? =
        some { applyPatch n data with lastEdited := now } ∧
      ({ applyPatch n data with lastEdited := now } : Note).lastEdited = now := by
  intro i n hi hid
  refine ⟨?_, rfl⟩
  unfold updateNote
  rw [List.getElem?_map, hi]
  simp [hid]

/-- Witness for C10: a patch carrying `lastEdited: 999` is overridden by the
refresh to the operation's clock value 7. -/
theorem updateNote_refreshes_lastEdited_witness :
    (updateNote "a" { lastEdited := some 999 } 7 [noteA])[0]? =
      some { applyPatch noteA { lastEdited := some 999 } with lastEdited := 7 } ∧
    ({ applyPatch noteA { lastEdited := some 999 } with lastEdited := 7 } : Note).lastEdited = 7 :=
  updateNote_refreshes_lastEdited [noteA] "a" { lastEdited := some 999 } 7 0 noteA rfl rfl

/- ### Claim C3 -/

/-- The empty needle occurs in every haystack (JS `includes("")`). -/
theorem hasSub_nil (l : List Char) : hasSub l [] = true := by
  cases l <;> simp [hasSub, leadsWith, List.isEmpty]

/-- An empty search text passes the spec's text criterion for every note. -/
theorem specTextMatches_empty (n : Note) : specTextMatches "" n = true := by
  have hlow : toLowerStr "" = "" := rfl
  simp [specTextMatches, hlow, strIncludes, hasSub_nil]

/-- C3: `filterNotes` returns exactly the notes — in the input order, as a
`List.filter` — satisfying the spec's date criterion (creation time inside
the reference date's inclusive local-day millisecond range) and text
criterion (search text case-insensitively a substring of the title or of the
markup-stripped content); with an empty search text the result is exactly
the notes meeting the date criterion.  Uniform in the local-calendar
conversion collaborator `mkTime`. -/
theorem filterNotes_spec
    (mkTime : Int → Int → Int → Int → Int → Int → Int → Int)
    (notes : List Note) (selectedDate : RefDate) (searchQuery : String) :
    filterNotes mkTime notes selectedDate searchQuery =
      notes.filter (fun n =>
        specDateMatches mkTime selectedDate n && specTextMatches searchQuery n) ∧
    (searchQuery = "" →
      filterNotes mkTime notes selectedDate searchQuery =
        notes.filter (specDateMatches mkTime selectedDate)) := by
  have hmain : ∀ q, filterNotes mkTime notes selectedDate q =
      notes.filter (fun n =>
        specDateMatches mkTime selectedDate n && specTextMatches q n) :=
    fun _ => rfl
  refine ⟨hmain searchQuery, ?_⟩
  rintro rfl
  rw [hmain ""]
  apply List.filter_congr
  intro n _
  simp [specTextMatches_empty n]

/-- Witness for C3 at a concrete conversion, store and empty search text. -/
theorem filterNotes_spec_witness :
    filterNotes mkTimeW [noteA] ⟨2024, 0, 1⟩ "" =
      [noteA].filter (specDateMatches mkTimeW ⟨2024, 0, 1⟩) :=
  (filterNotes_spec mkTimeW [noteA] ⟨2024, 0, 1⟩ "").2 rfl

/- ### Claim C9: number rendering and parsing -/

theorem digitChar_isDigit : ∀ d < 10, (digitChar d).isDigit = true := by decide

theorem digitChar_toNat : ∀ d < 10, (digitChar d).toNat = 48 + d := by decide

/-- Decimal rendering produces a nonempty run of digits whose value is the
rendered number. -/
theorem renderNat_spec : ∀ n : Nat,
    (∀ c ∈ renderNat n, c.isDigit = true) ∧ renderNat n ≠ [] ∧
      digitsToNat (renderNat n) = n := by
  intro n
  induction n using Nat.strong_induction_on with
  | _ n ih =>
    by_cases h : n < 10
    · rw [renderNat, if_pos h]
      refine ⟨?_, by simp, ?_⟩
      · intro c hc
        rw [List.mem_singleton] at hc
        subst hc
        exact digitChar_isDigit n h
      · simp [digitsToNat, digitChar_toNat n h]
    · rw [renderNat, if_neg h]
      obtain ⟨ihd, -, ihv⟩ := ih (n / 10) (Nat.div_lt_self (by omega) (by omega))
      have hmod : n % 10 < 10 := Nat.mod_lt _ (by omega)
      refine ⟨?_, by simp, ?_⟩
      · intro c hc
        rcases List.mem_append.mp hc with hc' | hc'
        · exact ihd c hc'
        · rw [List.mem_singleton] at hc'
          subst hc'
          exact digitChar_isDigit _ hmod
      · rw [digitsToNat, List.foldl_append]
        have : (renderNat (n / 10)).foldl (fun a c => a * 10 + (c.toNat - 48)) 0 = n / 10 := ihv
        rw [this]
        simp only [List.foldl_cons, List.foldl_nil]
        rw [digitChar_toNat _ hmod]
        omega

/-- Maximal-munch digit grabbing stops exactly at a non-digit boundary. -/
theorem grabDigits_exact : ∀ (ds rest : List Char),
    (∀ c ∈ ds, c.isDigit = true) → okAfter rest →
    grabDigits (ds ++ rest) = (ds, rest) := by
  intro ds
  induction ds with
  | nil =>
    intro rest _ hok
    cases rest with
    | nil => rfl
    | cons c t =>
      have hc : c.isDigit = false := hok
      simp [grabDigits, hc]
  | cons c t ih =>
    intro rest hds hok
    have hc : c.isDigit = true := hds c (by simp)
    rw [List.cons_append, grabDigits]
    simp only [hc, if_true]
    rw [ih rest (fun x hx => hds x (by simp [hx])) hok]

/-- Parsing inverts integer rendering when no digit follows. -/
theorem parseInt_render (i : Int) (rest : List Char) (hok : okAfter rest) :
    parseIntChars (renderInt i ++ rest) = some (.jnum i, rest) := by
  by_cases hneg : i < 0
  · rw [renderInt, if_pos hneg, List.cons_append, parseIntChars]
    simp only [if_pos rfl]
    obtain ⟨hd, hne, hv⟩ := renderNat_spec i.natAbs
    rw [grabDigits_exact _ rest hd hok]
    obtain ⟨c0, cs0, h0⟩ : ∃ c0 cs0, renderNat i.natAbs = c0 :: cs0 := by
      cases hh : renderNat i.natAbs with
      | nil => exact absurd hh hne
      | cons a b => exact ⟨a, b, rfl⟩
    rw [h0]
    have hval : digitsToNat (c0 :: cs0) = i.natAbs := h0 ▸ hv
    show some (Json.jnum (-(digitsToNat (c0 :: cs0) : Int)), rest) = some (Json.jnum i, rest)
    rw [hval]
    have : -(i.natAbs : Int) = i := by omega
    rw [this]
  · rw [renderInt, if_neg hneg]
    obtain ⟨hd, hne, hv⟩ := renderNat_spec i.toNat
    obtain ⟨c0, cs0, h0⟩ : ∃ c0 cs0, renderNat i.toNat = c0 :: cs0 := by
      cases hh : renderNat i.toNat with
      | nil => exact absurd hh hne
      | cons a b => exact ⟨a, b, rfl⟩
    have hc0 : c0.isDigit = true := hd c0 (by rw [h0]; simp)
    have hcm : ¬ c0 = '-' := by
      intro hcc
      rw [hcc] at hc0
      exact absurd hc0 (by decide)
    rw [h0, List.cons_append, parseIntChars]
    simp only [hcm, if_false]
    rw [← List.cons_append, ← h0, grabDigits_exact _ rest hd hok, h0]
    have hval : digitsToNat (c0 :: cs0) = i.toNat := h0 ▸ hv
    show some (Json.jnum (digitsToNat (c0 :: cs0) : Int), rest) = some (Json.jnum i, rest)
    rw [hval]
    have : ((i.toNat : Nat) : Int) = i := by omega
    rw [this]

/- ### Claim C9: string escaping round trip -/

theorem hexDigitChar_ok : ∀ d < 16,
    isHexDig (hexDigitChar d) = true ∧ hexVal (hexDigitChar d) = d := by decide

theorem parseStrChars_quote (r : List Char) :
    parseStrChars ('"' :: r) = some ([], r) := by
  rw [parseStrChars.eq_def]
  simp

theorem parseStrChars_esc_quote (r : List Char) :
    parseStrChars ('\\' :: '"' :: r) = consStr '"' (parseStrChars r) := by
  rw [parseStrChars.eq_def]
  simp

theorem parseStrChars_esc_back (r : List Char) :
    parseStrChars ('\\' :: '\\' :: r) = consStr '\\' (parseStrChars r) := by
  rw [parseStrChars.eq_def]
  simp

theorem parseStrChars_esc_b (r : List Char) :
    parseStrChars ('\\' :: 'b' :: r) = consStr (Char.ofNat 8) (parseStrChars r) := by
  rw [parseStrChars.eq_def]
  simp

theorem parseStrChars_esc_t (r : List Char) :
    parseStrChars ('\\' :: 't' :: r) = consStr (Char.ofNat 9) (parseStrChars r) := by
  rw [parseStrChars.eq_def]
  simp

theorem parseStrChars_esc_n (r : List Char) :
    parseStrChars ('\\' :: 'n' :: r) = consStr (Char.ofNat 10) (parseStrChars r) := by
  rw [parseStrChars.eq_def]
  simp

theorem parseStrChars_esc_f (r : List Char) :
    parseStrChars ('\\' :: 'f' :: r) = consStr (Char.ofNat 12) (parseStrChars r) := by
  rw [parseStrChars.eq_def]
  simp

theorem parseStrChars_esc_r (r : List Char) :
    parseStrChars ('\\' :: 'r' :: r) = consStr (Char.ofNat 13) (parseStrChars r) := by
  rw [parseStrChars.eq_def]
  simp

theorem parseStrChars_esc_u (u1 u2 u3 u4 : Char) (r : List Char)
    (hx1 : isHexDig u1 = true) (hx2 : isHexDig u2 = true)
    (hx3 : isHexDig u3 = true) (hx4 : isHexDig u4 = true) :
    parseStrChars ('\\' :: 'u' :: u1 :: u2 :: u3 :: u4 :: r) =
      consStr (Char.ofNat (((hexVal u1 * 16 + hexVal u2) * 16 + hexVal u3) * 16 + hexVal u4))
        (parseStrChars r) := by
  rw [parseStrChars.eq_def]
  simp [hx1, hx2, hx3, hx4]

theorem parseStrChars_plain (c : Char) (r : List Char)
    (hq : ¬ c = '"') (hb : ¬ c = '\\') :
    parseStrChars (c :: r) = consStr c (parseStrChars r) := by
  rw [parseStrChars.eq_def]
  simp [hq, hb]

/-- Parsing a string body inverts escaping, consuming through the closing
quote. -/
theorem parseStr_escape : ∀ (s rest : List Char),
    parseStrChars (escapeChars s ++ '"' :: rest) = some (s, rest) := by
  intro s
  induction s with
  | nil => intro rest; simpa [escapeChars] using parseStrChars_quote rest
  | cons c t ih =>
    intro rest
    rw [escapeChars, List.append_assoc]
    by_cases h1 : c = '"'
    · subst h1
      simp only [escChar, if_pos rfl, ite_true, List.cons_append, List.nil_append]
      rw [parseStrChars_esc_quote, ih]
      rfl
    · by_cases h2 : c = '\\'
      · subst h2
        simp only [escChar, if_pos rfl, if_neg (by decide : ¬ '\\' = '"'), ite_true,
          ite_false, List.cons_append, List.nil_append]
        rw [parseStrChars_esc_back, ih]
        rfl
      · by_cases h3 : c.toNat = 8
        · have hc : Char.ofNat 8 = c := by rw [← h3]; exact Char.ofNat_toNat c
          simp [escChar, h1, h2, h3]
          rw [parseStrChars_esc_b, ih, hc]
          rfl
        · by_cases h4 : c.toNat = 9
          · have hc : Char.ofNat 9 = c := by rw [← h4]; exact Char.ofNat_toNat c
            simp [escChar, h1, h2, h3, h4]
            rw [parseStrChars_esc_t, ih, hc]
            rfl
          · by_cases h5 : c.toNat = 10
            · have hc : Char.ofNat 10 = c := by rw [← h5]; exact Char.ofNat_toNat c
              simp [escChar, h1, h2, h3, h4, h5]
              rw [parseStrChars_esc_n, ih, hc]
              rfl
            · by_cases h6 : c.toNat = 12
              · have hc : Char.ofNat 12 = c := by rw [← h6]; exact Char.ofNat_toNat c
                simp [escChar, h1, h2, h3, h4, h5, h6]
                rw [parseStrChars_esc_f, ih, hc]
                rfl
              · by_cases h7 : c.toNat = 13
                · have hc : Char.ofNat 13 = c := by rw [← h7]; exact Char.ofNat_toNat c
                  simp [escChar, h1, h2, h3, h4, h5, h6, h7]
                  rw [parseStrChars_esc_r, ih, hc]
                  rfl
                · by_cases h8 : c.toNat < 32
                  · have hdiv : c.toNat / 16 < 16 := by omega
                    have hmod : c.toNat % 16 < 16 := by omega
                    obtain ⟨hhx1, hhv1⟩ := hexDigitChar_ok _ hdiv
                    obtain ⟨hhx2, hhv2⟩ := hexDigitChar_ok _ hmod
                    simp [escChar, h1, h2, h3, h4, h5, h6, h7, h8]
                    rw [parseStrChars_esc_u '0' '0' _ _ _ (by decide) (by decide)
                      hhx1 hhx2, ih]
                    have hc : Char.ofNat (((hexVal '0' * 16 + hexVal '0') * 16 +
                        hexVal (hexDigitChar (c.toNat / 16))) * 16 +
                        hexVal (hexDigitChar (c.toNat % 16))) = c := by
                      rw [hhv1, hhv2, show hexVal '0' = 0 from by decide]
                      have harith : ((0 * 16 + 0) * 16 + c.toNat / 16) * 16 +
                          c.toNat % 16 = c.toNat := by omega
                      rw [harith]
                      exact Char.ofNat_toNat c
                    rw [hc]
                    rfl
                  · simp [escChar, h1, h2, h3, h4, h5, h6, h7, h8]
                    rw [parseStrChars_plain c _ h1 h2, ih]
                    rfl

/- ### Claim C9: one-step reader lemmas -/

theorem parseValue_null (fuel : Nat) (r : List Char) :
    parseValue (fuel + 1) ('n' :: 'u' :: 'l' :: 'l' :: r) = some (.jnull, r) := rfl

theorem parseValue_true (fuel : Nat) (r : List Char) :
    parseValue (fuel + 1) ('t' :: 'r' :: 'u' :: 'e' :: r) = some (.jbool true, r) := rfl

theorem parseValue_false (fuel : Nat) (r : List Char) :
    parseValue (fuel + 1) ('f' :: 'a' :: 'l' :: 's' :: 'e' :: r) = some (.jbool false, r) := rfl

theorem parseValue_str (fuel : Nat) (cs s r2 : List Char)
    (h : parseStrChars cs = some (s, r2)) :
    parseValue (fuel + 1) ('"' :: cs) = some (.jstr (String.mk s), r2) := by
  rw [parseValue]
  simp only [h]

theorem parseValue_arr_nil (fuel : Nat) (r : List Char) :
    parseValue (fuel + 1) ('[' :: ']' :: r) = some (.jarr [], r) := rfl

theorem parseValue_arr_cons (fuel : Nat) (c : Char) (cs : List Char) (v : Json)
    (r2 : List Char) (vs : List Json) (r3 : List Char) (hne : ¬ c = ']')
    (h1 : parseValue fuel (c :: cs) = some (v, r2))
    (h2 : parseArrRest fuel r2 = some (vs, r3)) :
    parseValue (fuel + 1) ('[' :: c :: cs) = some (.jarr (v :: vs), r3) := by
  rw [parseValue]
  · simp only [h1, h2]
  · intro r4 heq
    rw [List.cons.injEq] at heq
    exact absurd heq.1 hne

theorem parseValue_obj_nil (fuel : Nat) (r : List Char) :
    parseValue (fuel + 1) ('\x7b' :: '\x7d' :: r) = some (.jobj [], r) := rfl

theorem parseValue_obj_cons (fuel : Nat) (cs k r2 : List Char) (v : Json)
    (r3 : List Char) (fs : List (String × Json)) (r4 : List Char)
    (hk : parseStrChars cs = some (k, ':' :: r2))
    (hv : parseValue fuel r2 = some (v, r3))
    (hf : parseObjRest fuel r3 = some (fs, r4)) :
    parseValue (fuel + 1) ('\x7b' :: '"' :: cs) =
      some (.jobj ((String.mk k, v) :: fs), r4) := by
  rw [parseValue]
  simp only [hk, hv, hf]

theorem parseValue_num (fuel : Nat) (c : Char) (cs : List Char)
    (hc : c = '-' ∨ c.isDigit = true) :
    parseValue (fuel + 1) (c :: cs) = parseIntChars (c :: cs) := by
  rw [parseValue]
  · rw [if_pos hc]
  all_goals
    intros
    subst_vars
    rcases hc with h' | h' <;> simp at h'

theorem parseArrRest_close (fuel : Nat) (r : List Char) :
    parseArrRest (fuel + 1) (']' :: r) = some ([], r) := rfl

theorem parseArrRest_comma (fuel : Nat) (cs : List Char) (v : Json) (r2 : List Char)
    (vs : List Json) (r3 : List Char)
    (h1 : parseValue fuel cs = some (v, r2))
    (h2 : parseArrRest fuel r2 = some (vs, r3)) :
    parseArrRest (fuel + 1) (',' :: cs) = some (v :: vs, r3) := by
  rw [parseArrRest]
  simp only [h1, h2]

theorem parseObjRest_close (fuel : Nat) (r : List Char) :
    parseObjRest (fuel + 1) ('\x7d' :: r) = some ([], r) := rfl

theorem parseObjRest_comma (fuel : Nat) (cs k r2 : List Char) (v : Json) (r3 : List Char)
    (fs : List (String × Json)) (r4 : List Char)
    (hk : parseStrChars cs = some (k, ':' :: r2))
    (hv : parseValue fuel r2 = some (v, r3))
    (hf : parseObjRest fuel r3 = some (fs, r4)) :
    parseObjRest (fuel + 1) (',' :: '"' :: cs) = some ((String.mk k, v) :: fs, r4) := by
  rw [parseObjRest]
  simp only [hk, hv, hf]

/- ### Claim C9: render-side head and boundary facts -/

theorem renderInt_head (i : Int) :
    ∃ c cs, renderInt i = c :: cs ∧ (c = '-' ∨ c.isDigit = true) := by
  rw [renderInt]
  by_cases h : i < 0
  · rw [if_pos h]
    exact ⟨'-', _, rfl, Or.inl rfl⟩
  · rw [if_neg h]
    obtain ⟨hd, hne, -⟩ := renderNat_spec i.toNat
    obtain ⟨c, cs, hc⟩ := List.exists_cons_of_ne_nil hne
    exact ⟨c, cs, hc, Or.inr (hd c (by rw [hc]; simp))⟩

theorem renderJson_head (v : Json) :
    ∃ c cs, renderJson v = c :: cs ∧ ¬ c = ']' ∧ ¬ c = ',' ∧ ¬ c = '\x7d' := by
  cases v with
  | jnull => exact ⟨'n', _, by rw [renderJson], by decide, by decide, by decide⟩
  | jbool b =>
    cases b with
    | true => exact ⟨'t', _, by rw [renderJson], by decide, by decide, by decide⟩
    | false => exact ⟨'f', _, by rw [renderJson], by decide, by decide, by decide⟩
  | jnum i =>
    obtain ⟨c, cs, hre, hc⟩ := renderInt_head i
    refine ⟨c, cs, by rw [renderJson, hre], ?_, ?_, ?_⟩
    all_goals
      rcases hc with rfl | hd
      · decide
      · intro hh
        subst hh
        simp at hd
  | jstr s => exact ⟨'"', _, by rw [renderJson], by decide, by decide, by decide⟩
  | jarr elems =>
    cases elems with
    | nil => exact ⟨'[', _, by rw [renderJson], by decide, by decide, by decide⟩
    | cons v vs => exact ⟨'[', _, by rw [renderJson], by decide, by decide, by decide⟩
  | jobj fields =>
    cases fields with
    | nil => exact ⟨'\x7b', _, by rw [renderJson], by decide, by decide, by decide⟩
    | cons f fs => exact ⟨'\x7b', _, by rw [renderJson], by decide, by decide, by decide⟩

theorem renderJson_length_pos (v : Json) : 0 < (renderJson v).length := by
  obtain ⟨c, cs, hre, -, -, -⟩ := renderJson_head v
  rw [hre]
  simp

theorem okAfter_arr (vs : List Json) (rest : List Char) :
    okAfter (renderArrRest vs ++ ']' :: rest) := by
  cases vs with
  | nil =>
    rw [renderArrRest]
    show okAfter (']' :: rest)
    show (']' : Char).isDigit = false
    decide
  | cons v vs =>
    rw [renderArrRest]
    show ((',' : Char).isDigit = false)
    decide

theorem okAfter_obj (fs : List (String × Json)) (rest : List Char) :
    okAfter (renderObjRest fs ++ '\x7d' :: rest) := by
  cases fs with
  | nil =>
    rw [renderObjRest]
    show (('\x7d' : Char).isDigit = false)
    decide
  | cons f fs =>
    rw [renderObjRest]
    show ((',' : Char).isDigit = false)
    decide

/- ### Claim C9: the reader inverts the renderer -/

/-- With enough fuel (fuel only ticks along with consumed characters), the
reader inverts the renderer: a rendered value followed by any non-digit
boundary, a rendered element tail closed by `]`, a rendered member tail
closed by the closing brace. -/
theorem parse_render_all : ∀ fuel : Nat,
    (∀ (v : Json) (rest : List Char), (renderJson v).length < fuel → okAfter rest →
      parseValue fuel (renderJson v ++ rest) = some (v, rest)) ∧
    (∀ (vs : List Json) (rest : List Char), (renderArrRest vs).length + 1 ≤ fuel →
      parseArrRest fuel (renderArrRest vs ++ ']' :: rest) = some (vs, rest)) ∧
    (∀ (fs : List (String × Json)) (rest : List Char),
      (renderObjRest fs).length + 1 ≤ fuel →
      parseObjRest fuel (renderObjRest fs ++ '\x7d' :: rest) = some (fs, rest)) := by
  intro fuel
  induction fuel with
  | zero =>
    refine ⟨?_, ?_, ?_⟩
    · intro v rest h _
      exact absurd h (by omega)
    · intro vs rest h
      exact absurd h (by omega)
    · intro fs rest h
      exact absurd h (by omega)
  | succ fuel ih =>
    obtain ⟨ihA, ihB, ihC⟩ := ih
    refine ⟨?_, ?_, ?_⟩
    · intro v rest hlen hok
      cases v with
      | jnull =>
        rw [renderJson]
        exact parseValue_null fuel rest
      | jbool b =>
        cases b with
        | true =>
          rw [renderJson]
          exact parseValue_true fuel rest
        | false =>
          rw [renderJson]
          exact parseValue_false fuel rest
      | jnum i =>
        rw [renderJson]
        obtain ⟨c, cs, hre, hc⟩ := renderInt_head i
        rw [hre, List.cons_append, parseValue_num fuel c (cs ++ rest) hc,
          ← List.cons_append, ← hre]
        exact parseInt_render i rest hok
      | jstr s =>
        rw [renderJson]
        rw [List.cons_append, List.append_assoc]
        exact parseValue_str fuel _ s.data rest (parseStr_escape s.data rest)
      | jarr elems =>
        cases elems with
        | nil =>
          rw [renderJson]
          exact parseValue_arr_nil fuel rest
        | cons v vs =>
          rw [renderJson] at hlen ⊢
          simp only [List.length_cons, List.length_append, List.length_nil] at hlen
          have hposv := renderJson_length_pos v
          have hv := ihA v (renderArrRest vs ++ ']' :: rest) (by omega) (okAfter_arr vs rest)
          have harr := ihB vs rest (by omega)
          obtain ⟨c, cs, hre, hne, -, -⟩ := renderJson_head v
          rw [hre, List.cons_append] at hv
          simp only [List.cons_append, List.append_assoc]
          rw [hre, List.cons_append]
          exact parseValue_arr_cons fuel c _ v _ vs rest hne hv harr
      | jobj fields =>
        cases fields with
        | nil =>
          rw [renderJson]
          exact parseValue_obj_nil fuel rest
        | cons f fs =>
          obtain ⟨k, v⟩ := f
          rw [renderJson, renderField] at hlen ⊢
          simp only [List.length_cons, List.length_append, List.length_nil] at hlen
          have hposv := renderJson_length_pos v
          have hkesc := parseStr_escape k.data
            (':' :: (renderJson v ++ (renderObjRest fs ++ '\x7d' :: rest)))
          have hv := ihA v (renderObjRest fs ++ '\x7d' :: rest) (by omega) (okAfter_obj fs rest)
          have hf := ihC fs rest (by omega)
          simp only [List.cons_append, List.append_assoc, List.nil_append]
          exact parseValue_obj_cons fuel _ k.data _ v _ fs rest hkesc hv hf
    · intro vs rest hlen
      cases vs with
      | nil =>
        rw [renderArrRest]
        exact parseArrRest_close fuel rest
      | cons v vs =>
        rw [renderArrRest] at hlen ⊢
        simp only [List.length_cons, List.length_append] at hlen
        have hposv := renderJson_length_pos v
        have hv := ihA v (renderArrRest vs ++ ']' :: rest) (by omega) (okAfter_arr vs rest)
        have harr := ihB vs rest (by omega)
        simp only [List.cons_append, List.append_assoc]
        exact parseArrRest_comma fuel _ v _ vs rest hv harr
    · intro fs rest hlen
      cases fs with
      | nil =>
        rw [renderObjRest]
        exact parseObjRest_close fuel rest
      | cons f fs =>
        obtain ⟨k, v⟩ := f
        rw [renderObjRest, renderField] at hlen ⊢
        simp only [List.length_cons, List.length_append, List.length_nil] at hlen
        have hposv := renderJson_length_pos v
        have hkesc := parseStr_escape k.data
          (':' :: (renderJson v ++ (renderObjRest fs ++ '\x7d' :: rest)))
        have hv := ihA v (renderObjRest fs ++ '\x7d' :: rest) (by omega) (okAfter_obj fs rest)
        have hf := ihC fs rest (by omega)
        simp only [List.cons_append, List.append_assoc, List.nil_append]
        exact parseObjRest_comma fuel _ k.data _ v _ fs rest hkesc hv hf

/-- The builtin `JSON.parse` inverts `JSON.stringify` on every JSON value. -/
theorem parseJson_render (v : Json) :
    parseJson (String.mk (renderJson v)) = some v := by
  unfold parseJson
  have h := (parse_render_all ((renderJson v).length + 1)).1 v [] (by omega) trivial
  rw [List.append_nil] at h
  rw [show (String.mk (renderJson v)).data = renderJson v from rfl]
  rw [h]

theorem mapOpt_asTag (ts : List String) :
    mapOpt asTag (ts.map Json.jstr) = some ts := by
  induction ts with
  | nil => rfl
  | cons t ts ih => simp [mapOpt, asTag, ih]

/-- Decoding inverts the note-object encoding. -/
theorem decodeNote_encodeNote (n : Note) : decodeNote (encodeNote n) = some n := by
  obtain ⟨id, title, content, dc, le, rem, tags⟩ := n
  cases rem with
  | none =>
    simp [decodeNote, encodeNote, lookupField, asStr, asInt, asReminder,
      asStrList, mapOpt_asTag]
  | some r =>
    simp [decodeNote, encodeNote, lookupField, asStr, asInt, asReminder,
      asStrList, mapOpt_asTag]

theorem mapOpt_decode (notesArray : List Note) :
    mapOpt decodeNote (notesArray.map encodeNote) = some notesArray := by
  induction notesArray with
  | nil => rfl
  | cons n ns ih => simp [mapOpt, decodeNote_encodeNote, ih]

/-- C9: persisting a collection of notes and reloading from the same storage
key yields an equal collection — same notes, same field values, same order.
(The field-shape hypothesis of the claim is carried by the `Note` type:
string `id`/`title`/`content`, integer timestamps, integer-or-null
`reminder`, string-list `tags`.) -/
theorem storage_round_trip (notesArray : List Note) :
    loadNotesFromStorage (saveNotesToStorage notesArray) = some notesArray := by
  unfold saveNotesToStorage loadNotesFromStorage encodeNotes
  obtain ⟨c, cs, hre, -, -, -⟩ := renderJson_head (Json.jarr (notesArray.map encodeNote))
  have hne : ¬ String.mk (renderJson (Json.jarr (notesArray.map encodeNote))) = "" := by
    rw [hre]
    simp [String.ext_iff]
  simp only [hne, ite_false, if_false, parseJson_render]
  exact mapOpt_decode notesArray

end Memote
